import Mathlib

/-!
Shallow embedding of the hand-rig export pipeline (export_hand.py).

Positions are rational 3-vectors.  Bones carry a name, an optional parent
name, and head/tail positions; a skeleton is the ordered bone list, as in
the host armature.  Vertex-group weights are per-vertex association lists
from group name to weight, matching the per-vertex group entries of the
host mesh.  The script mutates the scene in place; here each step is a
function from scene data to scene data, and the two fallible steps
(subtree traversal, rebase-root lookup) return Option.
-/

namespace HandExport

structure Vec3 where
  x : ℚ
  y : ℚ
  z : ℚ
deriving DecidableEq

def Vec3.sub (a b : Vec3) : Vec3 := ⟨a.x - b.x, a.y - b.y, a.z - b.z⟩

instance : Sub Vec3 := ⟨Vec3.sub⟩

def Vec3.zero : Vec3 := ⟨0, 0, 0⟩

/-- The X-mirror baked into the mesh by transform_apply, and applied
explicitly to bone heads/tails in the edit-bone loop. -/
def mirrorX (v : Vec3) : Vec3 := ⟨-v.x, v.y, v.z⟩

structure Bone where
  name : String
  parent : Option String
  head : Vec3
  tail : Vec3
deriving DecidableEq

abbrev Skeleton := List Bone

/-- The children of the edit bone named n: the bones whose parent link
points at it. -/
def childrenOf (s : Skeleton) (n : String) : List Bone :=
  s.filter (fun b => b.parent == some n)

/-- The recursive collect of export_hand.py lines 77-81: add the bone
name to keep, then recurse into every child.  The Python recursion has no
cycle check, so on a cyclic parent graph it never returns; fuel counts
the remaining recursion depth and none models a recursion that did not
complete within it. -/
def collectFuel (s : Skeleton) : Nat → List String → String → Option (List String)
  | 0, _, _ => none
  | fuel + 1, keep, n =>
    (childrenOf s n).foldl
      (fun acc c => acc.bind (fun k => collectFuel s fuel k c.name))
      (some (keep ++ [n]))

/-- Completed runs of collect at any depth. -/
def collectTerminates (s : Skeleton) (root : String) : Prop :=
  ∃ fuel keep, collectFuel s fuel [] root = some keep

/-- Independent characterisation of the kept set: n is reachable from
root by descending parent links. -/
inductive Reach (s : Skeleton) (root : String) : String → Prop
  | refl : Reach s root root
  | step {p : String} {b : Bone} :
      Reach s root p → b ∈ s → b.parent = some p → Reach s root b.name

/-- edit_bones.remove of the first bone carrying the given name, as
edit_bones.get returns the first match. -/
def removeBoneFirst : Skeleton → String → Skeleton
  | [], _ => []
  | b :: rest, n => if b.name = n then rest else b :: removeBoneFirst rest n

/-- The deletion loop of lines 86-88. -/
def deleteBones (s : Skeleton) (names : List String) : Skeleton :=
  names.foldl removeBoneFirst s

/-- Line 92: the kept root gets its parent link cleared. -/
def clearRootParent (s : Skeleton) (root : String) : Skeleton :=
  s.map (fun b => if b.name = root then { b with parent := none } else b)

/-- Lines 85-92: delete every bone whose name is not in keep, then clear
the parent of the kept root. -/
def extractSkeleton (s : Skeleton) (keep : List String) (root : String) : Skeleton :=
  clearRootParent
    (deleteBones s ((s.filter (fun b => !(keep.contains b.name))).map Bone.name))
    root

def mirrorBone (b : Bone) : Bone :=
  { b with head := mirrorX b.head, tail := mirrorX b.tail }

/-- Lines 95-97: negate the X coordinate of every bone head and tail. -/
def mirrorBones (s : Skeleton) : Skeleton := s.map mirrorBone

def findBone (s : Skeleton) (n : String) : Option Bone :=
  s.find? (fun b => b.name == n)

def translateBone (off : Vec3) (b : Bone) : Bone :=
  { b with head := b.head - off, tail := b.tail - off }

/-- Lines 103-105: subtract the offset from every bone head and tail. -/
def translateBones (s : Skeleton) (off : Vec3) : Skeleton :=
  s.map (translateBone off)

/-- Lines 94-105: mirror all bone positions, recompute the offset as the
root bone head after the mirror, then translate every bone by minus that
offset.  Returns the rebased skeleton together with the offset used,
or none when the root bone is absent. -/
def rebaseSkeleton (s : Skeleton) (root : String) : Option (Skeleton × Vec3) :=
  (findBone (mirrorBones s) root).map
    (fun rb => (translateBones (mirrorBones s) rb.head, rb.head))

/-- Line 116: Matrix.Translation (-offset) applied to every vertex. -/
def translateVerts (vs : List Vec3) (off : Vec3) : List Vec3 :=
  vs.map (fun v => v - off)

/-- Step 1 (lines 24-29): the object-level transform baked into the
vertices; per the script header it is the X-mirror. -/
def mirrorVerts (vs : List Vec3) : List Vec3 := vs.map mirrorX

abbrev VWeights := List (String × ℚ)

/-- First group entry of the vertex carrying the given group, as the
inner loop of lines 47-49 scans v.groups and breaks at the first hit. -/
def getWeight (ws : VWeights) (g : String) : Option ℚ :=
  (ws.find? (fun p => p.fst == g)).map Prod.snd

/-- Weight with the missing-entry-counts-as-zero convention of lines
46 and 51-52. -/
def effWeight (ws : VWeights) (g : String) : ℚ :=
  (getWeight ws g).getD 0

/-- vertex_group.add with REPLACE: overwrite the existing entry, or
append a fresh one when the vertex is not yet in the group. -/
def setWeight : VWeights → String → ℚ → VWeights
  | [], g, w => [(g, w)]
  | p :: rest, g, w => if p.fst = g then (g, w) :: rest else p :: setWeight rest g w

/-- Lines 45-53, one vertex: read the forearm.L weight (0 when absent);
when it is positive, read the hand.L weight (0 when absent) and replace
it by min (hand + forearm) 1. -/
def transferVertex (ws : VWeights) : VWeights :=
  if 0 < effWeight ws "forearm.L" then
    setWeight ws "hand.L" (min (effWeight ws "hand.L" + effWeight ws "forearm.L") 1)
  else ws

/-- Effect on one vertex of vertex_groups.remove: its entries for the
removed group disappear. -/
def dropGroupEntries (ws : VWeights) (g : String) : VWeights :=
  ws.filter (fun p => !(p.fst == g))

structure Mesh where
  groups : List String
  verts : List VWeights
  pos : List Vec3
deriving DecidableEq

/-- Lines 42-55: when both the forearm.L and hand.L vertex groups exist,
transfer the forearm weight of every vertex into hand.L and then remove
the forearm.L group; otherwise do nothing at all. -/
def weightTransferStep (m : Mesh) : Mesh :=
  if m.groups.contains "forearm.L" && m.groups.contains "hand.L" then
    { m with
      groups := m.groups.filter (fun g => !(g == "forearm.L")),
      verts := (m.verts.map transferVertex).map (fun ws => dropGroupEntries ws "forearm.L") }
  else m

/-- The explicit group denylist of lines 59-62. -/
def denylist : List String :=
  ["ribs.001", "shoulder.L", "upper_arm.L", "forearm.L", "forearm.L.003",
   "shoulder.R", "upper_arm.R", "forearm.R", "forearm.R.003"]

def containsSub (hay pat : List Char) : Bool :=
  match hay with
  | [] => pat.isEmpty
  | c :: t => pat.isPrefixOf (c :: t) || containsSub t pat

/-- Line 59: a group is removable when its name contains the substring
.R or is in the explicit denylist. -/
def removableName (n : String) : Bool :=
  containsSub n.toList ".R".toList || denylist.contains n

/-- Lines 58-64: drop every removable vertex group and its entries. -/
def cleanupGroups (m : Mesh) : Mesh :=
  { m with
    groups := m.groups.filter (fun g => !(removableName g)),
    verts := m.verts.map (fun ws => ws.filter (fun p => !(removableName p.fst))) }

inductive Stage where
  | load
  | discardDup
  | applyTransform
  | mergeWeights
  | cleanupUnused
  | extractSubtree
  | rebase
  | exportScene
deriving DecidableEq

structure Scene where
  skel : Skeleton
  mesh : Mesh
  mesh2 : Option Mesh
  log : List Stage
deriving DecidableEq

def stLoad (sc : Scene) : Scene :=
  { sc with log := sc.log ++ [Stage.load] }

/-- Lines 20-22: the duplicate mesh, when present, is removed. -/
def stDiscardDup (sc : Scene) : Scene :=
  { sc with mesh2 := none, log := sc.log ++ [Stage.discardDup] }

def stApplyTransform (sc : Scene) : Scene :=
  { sc with mesh := { sc.mesh with pos := mirrorVerts sc.mesh.pos },
            log := sc.log ++ [Stage.applyTransform] }

def stMergeWeights (sc : Scene) : Scene :=
  { sc with mesh := weightTransferStep sc.mesh,
            log := sc.log ++ [Stage.mergeWeights] }

def stCleanup (sc : Scene) : Scene :=
  { sc with mesh := cleanupGroups sc.mesh,
            log := sc.log ++ [Stage.cleanupUnused] }

/-- Lines 67-92: abort when hand.L is missing (the script exits), run
collect, prune the armature to the kept set. -/
def stExtract (fuel : Nat) (sc : Scene) : Option Scene :=
  match findBone sc.skel "hand.L" with
  | none => none
  | some _ =>
    (collectFuel sc.skel fuel [] "hand.L").map (fun keep =>
      { sc with skel := extractSkeleton sc.skel keep "hand.L",
                log := sc.log ++ [Stage.extractSubtree] })

/-- Lines 94-117: rebase the skeleton and translate the mesh vertices by
the same offset. -/
def stRebase (sc : Scene) : Option Scene :=
  (rebaseSkeleton sc.skel "hand.L").map (fun p =>
    { sc with skel := p.1,
              mesh := { sc.mesh with pos := translateVerts sc.mesh.pos p.2 },
              log := sc.log ++ [Stage.rebase] })

def stExportScene (sc : Scene) : Scene :=
  { sc with log := sc.log ++ [Stage.exportScene] }

/-- The top-to-bottom stage sequence of export_hand.py: load the
objects, discard the duplicate mesh, bake the object transform into the
vertices, transfer forearm weights into hand.L, drop removable groups,
prune the armature to the hand.L subtree, rebase, export. -/
def pipeline (fuel : Nat) (sc : Scene) : Option Scene :=
  ((stExtract fuel
      (stCleanup (stMergeWeights (stApplyTransform (stDiscardDup (stLoad sc)))))).bind
    stRebase).map stExportScene

/-- Per-vertex effect of the whole forearm-to-hand merge of lines 45-54:
transfer the weight, then lose the forearm entries when the group is
removed. -/
def mergeVertex (ws : VWeights) : VWeights :=
  dropGroupEntries (transferVertex ws) "forearm.L"

/-- The stage sequence of the source, top to bottom. -/
def actualOrder : List Stage :=
  [Stage.load, Stage.discardDup, Stage.applyTransform, Stage.mergeWeights,
   Stage.cleanupUnused, Stage.extractSubtree, Stage.rebase, Stage.exportScene]

/-- The stage sequence the specification describes: extraction before the
weight merge and the group cleanup. -/
def claimedOrder : List Stage :=
  [Stage.load, Stage.discardDup, Stage.applyTransform, Stage.extractSubtree,
   Stage.mergeWeights, Stage.cleanupUnused, Stage.rebase, Stage.exportScene]

/-! ### Concrete example data -/

def v0 : Vec3 := ⟨0, 0, 0⟩

/-- The four-bone example skeleton: a and c are children of root, b is a
child of a. -/
def exSkel : Skeleton :=
  [⟨"root", none, v0, v0⟩, ⟨"a", some "root", v0, v0⟩,
   ⟨"b", some "a", v0, v0⟩, ⟨"c", some "root", v0, v0⟩]

/-- A one-bone skeleton whose bone is its own parent. -/
def cycSkel : Skeleton := [⟨"a", some "a", v0, v0⟩]

/-- A self-parented root with one further child. -/
def cycSkel2 : Skeleton := [⟨"x", some "x", v0, v0⟩, ⟨"y", some "x", v0, v0⟩]

/-- The spec scenario weights forearm 0.8, hand 0.6. -/
def demoWs : VWeights := [("forearm.L", 4/5), ("hand.L", 3/5)]

/-- A vertex with zero forearm weight and an unrelated thumb weight. -/
def demoWs2 : VWeights := [("forearm.L", 0), ("hand.L", 1/2), ("thumb.L", 1/4)]

/-- A mesh with a hand group but no forearm group. -/
def demoMesh0 : Mesh := { groups := ["hand.L"], verts := [], pos := [] }

/-- A mesh with weight on a spine group that the cleanup denylist does
not cover. -/
def demoMesh5 : Mesh :=
  { groups := ["spine", "hand.L"], verts := [[("spine", 1), ("hand.L", 0)]], pos := [] }

/-- A skeleton where hand.L hangs below a spine bone. -/
def demoSkel5 : Skeleton :=
  [⟨"spine", none, v0, v0⟩, ⟨"hand.L", some "spine", v0, v0⟩]

/-- One hand bone with head (2,1,0), the spec rebase scenario. -/
def exSkelC1 : Skeleton := [⟨"hand.L", none, ⟨2, 1, 0⟩, ⟨2, 2, 0⟩⟩]

def exRootBone : Bone := ⟨"hand.L", none, ⟨2, 1, 0⟩, ⟨2, 2, 0⟩⟩

/-- exSkelC1 after mirror and translation. -/
def exRebased : Skeleton := [⟨"hand.L", none, ⟨0, 0, 0⟩, ⟨0, 1, 0⟩⟩]

/-- A minimal scene on which the pipeline completes. -/
def demoScene : Scene :=
  { skel := [⟨"hand.L", none, v0, v0⟩],
    mesh := { groups := [], verts := [], pos := [] },
    mesh2 := none,
    log := [] }

/-- The result of the pipeline on demoScene. -/
def demoSceneOut : Scene :=
  { skel := [⟨"hand.L", none, v0, v0⟩],
    mesh := { groups := [], verts := [], pos := [] },
    mesh2 := none,
    log := actualOrder }

/-! ### Correctness of the collect traversal -/

lemma foldl_bind_none (g : List String → String → Option (List String)) (l : List Bone) :
    l.foldl (fun acc c => acc.bind (fun k => g k c.name)) none = none := by
  induction l with
  | nil => rfl
  | cons c t ih => simpa using ih

lemma foldl_bind_mono (g : List String → String → Option (List String))
    (hg : ∀ a m r, g a m = some r → a ⊆ r) :
    ∀ (l : List Bone) (a keep : List String),
      l.foldl (fun acc c => acc.bind (fun k => g k c.name)) (some a) = some keep →
      a ⊆ keep := by
  intro l
  induction l with
  | nil =>
    intro a keep h
    cases h
    exact fun x hx => hx
  | cons c t ih =>
    intro a keep h
    rw [List.foldl_cons] at h
    simp only [Option.some_bind] at h
    cases hga : g a c.name with
    | none =>
      rw [hga, foldl_bind_none] at h
      exact absurd h (by simp)
    | some a1 =>
      rw [hga] at h
      exact List.Subset.trans (hg a c.name a1 hga) (ih a1 keep h)

lemma collectFuel_mono (s : Skeleton) :
    ∀ (fuel : Nat) (acc : List String) (n : String) (keep : List String),
      collectFuel s fuel acc n = some keep → acc ⊆ keep := by
  intro fuel
  induction fuel with
  | zero =>
    intro acc n keep h
    simp [collectFuel] at h
  | succ f ih =>
    intro acc n keep h
    simp only [collectFuel] at h
    have h2 := foldl_bind_mono (collectFuel s f) (fun a m r hr => ih a m r hr)
      (childrenOf s n) (acc ++ [n]) keep h
    exact fun x hx => h2 (List.mem_append_left _ hx)

lemma collectFuel_self (s : Skeleton) (fuel : Nat) (acc : List String) (n : String)
    (keep : List String) (h : collectFuel s fuel acc n = some keep) : n ∈ keep := by
  cases fuel with
  | zero => simp [collectFuel] at h
  | succ f =>
    simp only [collectFuel] at h
    have h2 := foldl_bind_mono (collectFuel s f)
      (fun a m r hr => collectFuel_mono s f a m r hr) (childrenOf s n) (acc ++ [n]) keep h
    exact h2 (by simp)

lemma foldl_bind_sound (g : List String → String → Option (List String))
    (P : String → String → Prop)
    (hg : ∀ a m r, g a m = some r → ∀ x ∈ r, x ∈ a ∨ P m x) :
    ∀ (l : List Bone) (a keep : List String),
      l.foldl (fun acc c => acc.bind (fun k => g k c.name)) (some a) = some keep →
      ∀ x ∈ keep, x ∈ a ∨ ∃ c ∈ l, P c.name x := by
  intro l
  induction l with
  | nil =>
    intro a keep h x hx
    cases h
    exact Or.inl hx
  | cons c t ih =>
    intro a keep h x hx
    rw [List.foldl_cons] at h
    simp only [Option.some_bind] at h
    cases hga : g a c.name with
    | none =>
      rw [hga, foldl_bind_none] at h
      exact absurd h (by simp)
    | some a1 =>
      rw [hga] at h
      rcases ih a1 keep h x hx with h1 | ⟨c2, hc2, hp⟩
      · rcases hg a c.name a1 hga x h1 with h2 | hp
        · exact Or.inl h2
        · exact Or.inr ⟨c, List.mem_cons_self c t, hp⟩
      · exact Or.inr ⟨c2, List.mem_cons_of_mem c hc2, hp⟩

lemma Reach.trans {s : Skeleton} {a b c : String}
    (h1 : Reach s a b) (h2 : Reach s b c) : Reach s a c := by
  induction h2 with
  | refl => exact h1
  | step hp hb hpar ih => exact Reach.step ih hb hpar

lemma collectFuel_sound (s : Skeleton) :
    ∀ (fuel : Nat) (acc : List String) (n : String) (keep : List String),
      collectFuel s fuel acc n = some keep → ∀ x ∈ keep, x ∈ acc ∨ Reach s n x := by
  intro fuel
  induction fuel with
  | zero =>
    intro acc n keep h
    simp [collectFuel] at h
  | succ f ih =>
    intro acc n keep h x hx
    simp only [collectFuel] at h
    have h2 := foldl_bind_sound (collectFuel s f) (fun m y => Reach s m y)
      (fun a m r hr => ih a m r hr) (childrenOf s n) (acc ++ [n]) keep h x hx
    rcases h2 with h3 | ⟨c, hc, hr⟩
    · rcases List.mem_append.mp h3 with h4 | h4
      · exact Or.inl h4
      · have hxn : x = n := by simpa using h4
        subst hxn
        exact Or.inr Reach.refl
    · have hcs := List.mem_filter.mp hc
      have hstep : Reach s n c.name :=
        Reach.step Reach.refl hcs.1 (by simpa using hcs.2)
      exact Or.inr (Reach.trans hstep hr)

lemma foldl_bind_each (g : List String → String → Option (List String))
    (hg : ∀ a m r, g a m = some r → a ⊆ r) :
    ∀ (l : List Bone) (a keep : List String),
      l.foldl (fun acc c => acc.bind (fun k => g k c.name)) (some a) = some keep →
      ∀ c ∈ l, ∃ a1 r1, g a1 c.name = some r1 ∧ r1 ⊆ keep := by
  intro l
  induction l with
  | nil =>
    intro a keep h c hc
    simp at hc
  | cons c0 t ih =>
    intro a keep h c hc
    rw [List.foldl_cons] at h
    simp only [Option.some_bind] at h
    cases hga : g a c0.name with
    | none =>
      rw [hga, foldl_bind_none] at h
      exact absurd h (by simp)
    | some a1 =>
      rw [hga] at h
      rcases List.mem_cons.mp hc with hc1 | hc2
      · subst hc1
        exact ⟨a, a1, hga, foldl_bind_mono g hg t a1 keep h⟩
      · exact ih a1 keep h c hc2

lemma Reach.first_step {s : Skeleton} {n x : String} (h : Reach s n x) :
    x = n ∨ ∃ c ∈ childrenOf s n, Reach s c.name x := by
  induction h with
  | refl => exact Or.inl rfl
  | step hp hb hpar ih =>
    rcases ih with hpn | ⟨c, hc, hr⟩
    · subst hpn
      right
      refine ⟨_, List.mem_filter.mpr ⟨hb, by simpa using hpar⟩, Reach.refl⟩
    · right
      exact ⟨c, hc, Reach.step hr hb hpar⟩

lemma collectFuel_complete (s : Skeleton) :
    ∀ (fuel : Nat) (acc : List String) (n : String) (keep : List String),
      collectFuel s fuel acc n = some keep → ∀ x, Reach s n x → x ∈ keep := by
  intro fuel
  induction fuel with
  | zero =>
    intro acc n keep h
    simp [collectFuel] at h
  | succ f ih =>
    intro acc n keep h x hx
    rcases Reach.first_step hx with hxn | ⟨c, hc, hr⟩
    · rw [hxn]
      exact collectFuel_self s (f + 1) acc n keep h
    · simp only [collectFuel] at h
      rcases foldl_bind_each (collectFuel s f)
          (fun a m r hr => collectFuel_mono s f a m r hr)
          (childrenOf s n) (acc ++ [n]) keep h c hc with ⟨a1, r1, hcall, hsub⟩
      exact hsub (ih a1 c.name r1 hcall x hr)

lemma collectFuel_keep_iff (s : Skeleton) (fuel : Nat) (root : String)
    (keep : List String) (h : collectFuel s fuel [] root = some keep) (x : String) :
    x ∈ keep ↔ Reach s root x := by
  constructor
  · intro hx
    rcases collectFuel_sound s fuel [] root keep h x hx with h2 | h2
    · simp at h2
    · exact h2
  · exact collectFuel_complete s fuel [] root keep h x

/-! ### Extraction of the kept subtree -/

lemma removeBoneFirst_eq_filter :
    ∀ (s : Skeleton) (n : String), (s.map Bone.name).Nodup →
      removeBoneFirst s n = s.filter (fun b => !(b.name == n)) := by
  intro s
  induction s with
  | nil => intro n _; rfl
  | cons b t ih =>
    intro n hnd
    simp only [List.map_cons, List.nodup_cons] at hnd
    by_cases hb : b.name = n
    · simp only [removeBoneFirst, if_pos hb, List.filter_cons, hb, beq_self_eq_true,
        Bool.not_true, Bool.false_eq_true, if_neg, ite_false]
      refine (List.filter_eq_self.mpr ?_).symm
      intro bb hbb
      have : bb.name ≠ n := by
        intro hEq
        apply hnd.1
        rw [hb, ← hEq]
        exact List.mem_map_of_mem Bone.name hbb
      simpa using this
    · simp only [removeBoneFirst, if_neg hb, List.filter_cons]
      have : (!(b.name == n)) = true := by simpa using hb
      rw [this, if_pos rfl, ih n hnd.2]

lemma mem_deleteBones :
    ∀ (names : List String) (s : Skeleton), (s.map Bone.name).Nodup →
      ∀ b, b ∈ deleteBones s names ↔ (b ∈ s ∧ b.name ∉ names) := by
  intro names
  induction names with
  | nil =>
    intro s hnd b
    simp [deleteBones]
  | cons n ns ih =>
    intro s hnd b
    have hstep : deleteBones s (n :: ns) = deleteBones (removeBoneFirst s n) ns := rfl
    have hfil : removeBoneFirst s n = s.filter (fun b => !(b.name == n)) :=
      removeBoneFirst_eq_filter s n hnd
    have hnd2 : ((removeBoneFirst s n).map Bone.name).Nodup := by
      rw [hfil]
      exact hnd.sublist (List.Sublist.map Bone.name (List.filter_sublist s))
    rw [hstep, ih _ hnd2 b, hfil]
    simp only [List.mem_filter, List.mem_cons]
    constructor
    · rintro ⟨⟨hbs, hbn⟩, hns⟩
      refine ⟨hbs, ?_⟩
      rintro (h1 | h2)
      · simp [h1] at hbn
      · exact hns h2
    · rintro ⟨hbs, hnot⟩
      exact ⟨⟨hbs, by simpa using fun h => hnot (Or.inl h)⟩, fun h => hnot (Or.inr h)⟩

lemma clearRootParent_names (s : Skeleton) (root : String) (n : String) :
    (∃ b ∈ clearRootParent s root, b.name = n) ↔ (∃ b ∈ s, b.name = n) := by
  constructor
  · rintro ⟨b, hb, hn⟩
    rcases List.mem_map.mp hb with ⟨b0, hb0, hEq⟩
    refine ⟨b0, hb0, ?_⟩
    by_cases h : b0.name = root
    · rw [← hEq] at hn
      simp only [h, if_pos rfl] at hn
      rw [h]
      exact hn
    · rw [← hEq] at hn
      simp only [if_neg h] at hn
      exact hn
  · rintro ⟨b, hb, hn⟩
    by_cases h : b.name = root
    · exact ⟨{ b with parent := none }, List.mem_map.mpr ⟨b, hb, by simp [clearRootParent, h]⟩, hn⟩
    · exact ⟨b, List.mem_map.mpr ⟨b, hb, by simp [clearRootParent, h]⟩, hn⟩

lemma mem_extractSkeleton_name (s : Skeleton) (keep : List String) (root : String)
    (hnd : (s.map Bone.name).Nodup) (n : String) :
    (∃ b ∈ extractSkeleton s keep root, b.name = n) ↔
      ((∃ b ∈ s, b.name = n) ∧ n ∈ keep) := by
  unfold extractSkeleton
  rw [clearRootParent_names]
  constructor
  · rintro ⟨b, hb, hn⟩
    rcases (mem_deleteBones _ s hnd b).mp hb with ⟨hbs, hnames⟩
    refine ⟨⟨b, hbs, hn⟩, ?_⟩
    by_contra hkeep
    apply hnames
    apply List.mem_map_of_mem Bone.name (List.mem_filter.mpr ⟨hbs, ?_⟩)
    rw [hn]
    simpa using fun h => hkeep (by simpa using h)
  · rintro ⟨⟨b, hbs, hn⟩, hkeep⟩
    refine ⟨b, (mem_deleteBones _ s hnd b).mpr ⟨hbs, ?_⟩, hn⟩
    intro hmem
    rcases List.mem_map.mp hmem with ⟨b2, hb2, hEq⟩
    have hb2f := List.mem_filter.mp hb2
    have : ¬ (keep.contains b2.name = true) := by simpa using hb2f.2
    apply this
    rw [hEq, hn]
    simpa using hkeep

lemma extractSkeleton_root_parent (s : Skeleton) (keep : List String) (root : String) :
    ∀ b ∈ extractSkeleton s keep root, b.name = root → b.parent = none := by
  intro b hb hn
  rcases List.mem_map.mp hb with ⟨b0, _, hEq⟩
  by_cases h : b0.name = root
  · rw [← hEq]
    simp [h]
  · rw [← hEq] at hn
    simp only [if_neg h] at hn
    exact absurd hn h

/-! ### Weight transfer lemmas -/

lemma getWeight_setWeight_same :
    ∀ (ws : VWeights) (g : String) (w : ℚ), getWeight (setWeight ws g w) g = some w := by
  intro ws
  induction ws with
  | nil =>
    intro g w
    simp [setWeight, getWeight]
  | cons p t ih =>
    intro g w
    by_cases h : p.fst = g
    · simp [setWeight, if_pos h, getWeight]
    · have hb : ¬ ((p.fst == g) = true) := by simpa using h
      simp only [setWeight, if_neg h, getWeight, List.find?]
      rw [Bool.of_not_eq_true hb]
      exact ih g w

lemma getWeight_setWeight_other :
    ∀ (ws : VWeights) (g g2 : String) (w : ℚ), g2 ≠ g →
      getWeight (setWeight ws g w) g2 = getWeight ws g2 := by
  intro ws
  induction ws with
  | nil =>
    intro g g2 w hne
    have hb : ¬ ((g == g2) = true) := by simpa using fun h => hne h.symm
    simp only [setWeight, getWeight, List.find?]
    rw [Bool.of_not_eq_true hb]
  | cons p t ih =>
    intro g g2 w hne
    by_cases h : p.fst = g
    · have hb : ¬ ((g == g2) = true) := by simpa using fun hx => hne hx.symm
      have hb2 : ¬ ((p.fst == g2) = true) := by
        rw [h]
        exact hb
      simp only [setWeight, if_pos h, getWeight, List.find?]
      rw [Bool.of_not_eq_true hb, Bool.of_not_eq_true hb2]
    · simp only [setWeight, if_neg h, getWeight, List.find?]
      cases hb : (p.fst == g2) with
      | true => rfl
      | false => exact ih g g2 w hne

lemma getWeight_filter (q : String × ℚ → Bool) :
    ∀ (ws : VWeights) (g : String), (∀ p : String × ℚ, p.fst = g → q p = true) →
      getWeight (ws.filter q) g = getWeight ws g := by
  intro ws
  induction ws with
  | nil => intro g _; rfl
  | cons p t ih =>
    intro g hq
    by_cases h : p.fst = g
    · rw [List.filter_cons, hq p h]
      simp only [if_pos rfl, getWeight, List.find?]
      rw [(by simpa using h : (p.fst == g) = true)]
    · cases hqp : q p with
      | false =>
        rw [List.filter_cons, hqp]
        simp only [Bool.false_eq_true, if_neg, ite_false]
        rw [ih g hq]
        simp only [getWeight, List.find?]
        rw [(by simpa using h : (p.fst == g) = false)]
      | true =>
        rw [List.filter_cons, hqp]
        simp only [if_pos rfl, getWeight, List.find?]
        rw [(by simpa using h : (p.fst == g) = false)]
        exact ih g hq

lemma getWeight_mem (ws : VWeights) (g : String) (w : ℚ)
    (h : getWeight ws g = some w) : (g, w) ∈ ws := by
  rcases Option.map_eq_some'.mp h with ⟨p, hfind, hsnd⟩
  have hmem := List.mem_of_find?_eq_some hfind
  have hfst := List.find?_some hfind
  have : p = (g, w) := by
    rcases p with ⟨pf, psn⟩
    simp only at hsnd
    have hpf : pf = g := by simpa using hfst
    rw [hpf, hsnd]
  rw [← this]
  exact hmem

lemma effWeight_nonneg (ws : VWeights) (g : String)
    (hb : ∀ p ∈ ws, 0 ≤ p.snd ∧ p.snd ≤ 1) : 0 ≤ effWeight ws g := by
  unfold effWeight
  cases h : getWeight ws g with
  | none => simp
  | some w =>
    simp only [Option.getD_some]
    exact (hb (g, w) (getWeight_mem ws g w h)).1

lemma effWeight_le_one (ws : VWeights) (g : String)
    (hb : ∀ p ∈ ws, 0 ≤ p.snd ∧ p.snd ≤ 1) : effWeight ws g ≤ 1 := by
  unfold effWeight
  cases h : getWeight ws g with
  | none => simp
  | some w =>
    simp only [Option.getD_some]
    exact (hb (g, w) (getWeight_mem ws g w h)).2

lemma getWeight_dropGroup_same : ∀ (ws : VWeights) (g : String),
    getWeight (dropGroupEntries ws g) g = none := by
  intro ws
  induction ws with
  | nil => intro g; rfl
  | cons p t ih =>
    intro g
    unfold dropGroupEntries at ih ⊢
    rw [List.filter_cons]
    by_cases h : p.fst = g
    · rw [(by simpa using h : (!(p.fst == g)) = false)]
      simpa using ih g
    · rw [(by simpa using h : (!(p.fst == g)) = true), if_pos rfl]
      simp only [getWeight, List.find?]
      rw [(by simpa using h : (p.fst == g) = false)]
      exact ih g

lemma effWeight_mergeVertex_hand (ws : VWeights) :
    effWeight (mergeVertex ws) "hand.L" = effWeight (transferVertex ws) "hand.L" := by
  unfold mergeVertex dropGroupEntries effWeight
  rw [getWeight_filter]
  intro p hp
  rw [hp]
  decide

/-! ### Rebase lemmas -/

lemma findBone_map_name (f : Bone → Bone) (hf : ∀ b, (f b).name = b.name) :
    ∀ (s : Skeleton) (n : String), findBone (s.map f) n = (findBone s n).map f := by
  intro s
  induction s with
  | nil => intro n; rfl
  | cons b t ih =>
    intro n
    simp only [List.map_cons, findBone, List.find?]
    rw [hf b]
    cases hb : (b.name == n) with
    | true => rfl
    | false => exact ih n

lemma Vec3.sub_self (v : Vec3) : v - v = Vec3.zero := by
  show Vec3.sub v v = Vec3.zero
  simp [Vec3.sub, Vec3.zero]

lemma Vec3.sub_def (a b : Vec3) : a - b = ⟨a.x - b.x, a.y - b.y, a.z - b.z⟩ := rfl

lemma mirrorBone_name (b : Bone) : (mirrorBone b).name = b.name := rfl

lemma translateBone_name (off : Vec3) (b : Bone) : (translateBone off b).name = b.name := rfl

lemma findBone_mirrorBones (s : Skeleton) (n : String) :
    findBone (mirrorBones s) n = (findBone s n).map mirrorBone :=
  findBone_map_name mirrorBone mirrorBone_name s n

lemma findBone_translateBones (s : Skeleton) (off : Vec3) (n : String) :
    findBone (translateBones s off) n = (findBone s n).map (translateBone off) :=
  findBone_map_name (translateBone off) (translateBone_name off) s n

/-! ### Divergence of collect on a self-parented root -/

lemma foldl_bind_elem_none (g : List String → String → Option (List String)) (c : Bone)
    (hgc : ∀ a, g a c.name = none) :
    ∀ (l : List Bone), c ∈ l → ∀ a0 : Option (List String),
      l.foldl (fun acc c => acc.bind (fun k => g k c.name)) a0 = none := by
  intro l
  induction l with
  | nil =>
    intro hc
    exact absurd hc (List.not_mem_nil c)
  | cons c0 t ih =>
    intro hc a0
    rw [List.foldl_cons]
    rcases List.mem_cons.mp hc with hEq | hmem
    · have hnone : (a0.bind fun k => g k c0.name) = none := by
        cases a0 with
        | none => rfl
        | some a =>
          simp only [Option.some_bind]
          rw [← hEq]
          exact hgc a
      rw [hnone, foldl_bind_none]
    · exact ih hmem _

lemma collect_selfparent_diverges (s : Skeleton) (root : String) (b : Bone)
    (hb : b ∈ s) (hname : b.name = root) (hpar : b.parent = some root) :
    ∀ (fuel : Nat) (acc : List String), collectFuel s fuel acc root = none := by
  intro fuel
  induction fuel with
  | zero => intro acc; rfl
  | succ f ih =>
    intro acc
    simp only [collectFuel]
    refine foldl_bind_elem_none (collectFuel s f) b ?_ (childrenOf s root) ?_ _
    · intro a
      rw [hname]
      exact ih a
    · exact List.mem_filter.mpr ⟨hb, by simpa using hpar⟩

/-! ### Pipeline stage log lemmas -/

lemma stExtract_log (fuel : Nat) (sc sc2 : Scene) (h : stExtract fuel sc = some sc2) :
    sc2.log = sc.log ++ [Stage.extractSubtree] := by
  unfold stExtract at h
  cases hfb : findBone sc.skel "hand.L" with
  | none =>
    rw [hfb] at h
    exact absurd h (by simp)
  | some b =>
    rw [hfb] at h
    cases hcf : collectFuel sc.skel fuel [] "hand.L" with
    | none =>
      rw [hcf] at h
      exact absurd h (by simp)
    | some keep =>
      rw [hcf] at h
      simp only [Option.map_some', Option.some.injEq] at h
      rw [← h]

lemma stRebase_log (sc sc2 : Scene) (h : stRebase sc = some sc2) :
    sc2.log = sc.log ++ [Stage.rebase] := by
  unfold stRebase at h
  cases hrb : rebaseSkeleton sc.skel "hand.L" with
  | none =>
    rw [hrb] at h
    exact absurd h (by simp)
  | some p =>
    rw [hrb] at h
    simp only [Option.map_some', Option.some.injEq] at h
    rw [← h]

/-! ### Claim theorems -/

/-- C1: the rebase offset equals the root bone head computed after the
mirror has been applied to bone positions; every bone head/tail is then
translated by minus that single offset, and the mesh vertices undergo
the same mirror followed by translation by the same offset, so mirrored
vertices stay co-located with the skeleton. -/
theorem claim_C1_rebase_offset (s : Skeleton) (root : String) (rb : Bone) (vs : List Vec3)
    (h : findBone s root = some rb) :
    rebaseSkeleton s root =
      some (translateBones (mirrorBones s) (mirrorX rb.head), mirrorX rb.head) ∧
    translateVerts (mirrorVerts vs) (mirrorX rb.head)
      = vs.map (fun v => mirrorX v - mirrorX rb.head) := by
  constructor
  · unfold rebaseSkeleton
    rw [findBone_mirrorBones, h]
    rfl
  · unfold translateVerts mirrorVerts
    rw [List.map_map]
    rfl

/-- Witness for C1 at the spec scenario: root head (2,1,0) gives offset
(-2,1,0), and the vertex (-1,1,0) ends at (3,0,0). -/
theorem claim_C1_witness :
    (findBone exSkelC1 "hand.L" = some exRootBone) ∧
    (rebaseSkeleton exSkelC1 "hand.L" =
        some (translateBones (mirrorBones exSkelC1) (mirrorX exRootBone.head),
          mirrorX exRootBone.head) ∧
      translateVerts (mirrorVerts [⟨-1, 1, 0⟩]) (mirrorX exRootBone.head)
        = [(⟨-1, 1, 0⟩ : Vec3)].map (fun v => mirrorX v - mirrorX exRootBone.head)) ∧
    mirrorX exRootBone.head = (⟨-2, 1, 0⟩ : Vec3) ∧
    translateVerts (mirrorVerts [⟨-1, 1, 0⟩]) (mirrorX exRootBone.head) = [(⟨3, 0, 0⟩ : Vec3)] :=
  ⟨by decide, claim_C1_rebase_offset exSkelC1 "hand.L" exRootBone [⟨-1, 1, 0⟩] (by decide),
   by decide,
   by norm_num [translateVerts, mirrorVerts, mirrorX, exRootBone, Vec3.sub_def, Vec3.mk.injEq]⟩

/-- C2: for every skeleton with unique bone names containing keepRoot,
when the collect traversal completes, the extracted skeleton holds
exactly keepRoot and its transitive descendants (computed independently
as Reach), and the kept root has its parent link cleared. -/
theorem claim_C2_extract_exact_subtree (s : Skeleton) (fuel : Nat) (keepRoot : String)
    (keep : List String) (hnd : (s.map Bone.name).Nodup)
    (_hroot : ∃ b ∈ s, b.name = keepRoot)
    (hc : collectFuel s fuel [] keepRoot = some keep) :
    (∀ n, (∃ b ∈ extractSkeleton s keep keepRoot, b.name = n) ↔
        ((∃ b ∈ s, b.name = n) ∧ Reach s keepRoot n)) ∧
    (∀ b ∈ extractSkeleton s keep keepRoot, b.name = keepRoot → b.parent = none) := by
  refine ⟨?_, extractSkeleton_root_parent s keep keepRoot⟩
  intro n
  rw [mem_extractSkeleton_name s keep keepRoot hnd n]
  constructor
  · rintro ⟨hb, hk⟩
    exact ⟨hb, (collectFuel_keep_iff s fuel keepRoot keep hc n).mp hk⟩
  · rintro ⟨hb, hr⟩
    exact ⟨hb, (collectFuel_keep_iff s fuel keepRoot keep hc n).mpr hr⟩

/-- Witness for C2 at the four-bone skeleton: extracting at a keeps
exactly a and b, and a loses its parent link. -/
theorem claim_C2_witness :
    ((exSkel.map Bone.name).Nodup ∧ (∃ b ∈ exSkel, b.name = "a") ∧
      collectFuel exSkel 5 [] "a" = some ["a", "b"]) ∧
    ((∀ n, (∃ b ∈ extractSkeleton exSkel ["a", "b"] "a", b.name = n) ↔
        ((∃ b ∈ exSkel, b.name = n) ∧ Reach exSkel "a" n)) ∧
    (∀ b ∈ extractSkeleton exSkel ["a", "b"] "a", b.name = "a" → b.parent = none)) :=
  ⟨⟨by decide, by decide, by decide⟩,
   claim_C2_extract_exact_subtree exSkel 5 "a" ["a", "b"] (by decide) (by decide) (by decide)⟩

/-- C3: per vertex, the removal-set weight (here the forearm.L weight,
missing entries counting as 0) is added to the existing hand.L weight
(missing counting as 0), clamped to at most 1, and written back, and the
resulting merge-target weight never exceeds 1. -/
theorem claim_C3_weight_merge (ws : VWeights)
    (hb : ∀ p ∈ ws, 0 ≤ p.snd ∧ p.snd ≤ 1) :
    effWeight (mergeVertex ws) "hand.L"
      = min (effWeight ws "hand.L" + effWeight ws "forearm.L") 1 ∧
    effWeight (mergeVertex ws) "hand.L" ≤ 1 := by
  rw [effWeight_mergeVertex_hand]
  unfold transferVertex
  by_cases h : 0 < effWeight ws "forearm.L"
  · rw [if_pos h]
    constructor
    · unfold effWeight
      rw [getWeight_setWeight_same]
      rfl
    · unfold effWeight
      rw [getWeight_setWeight_same]
      exact min_le_right _ _
  · rw [if_neg h]
    have h0 : effWeight ws "forearm.L" = 0 :=
      le_antisymm (not_lt.mp h) (effWeight_nonneg ws "forearm.L" hb)
    rw [h0, add_zero]
    exact ⟨(min_eq_left (effWeight_le_one ws "hand.L" hb)).symm,
      effWeight_le_one ws "hand.L" hb⟩

/-- Witness for C3 at the spec scenario forearm 0.8, hand 0.6: the merge
yields hand 1.0 (clamped) and removes the forearm entry. -/
theorem claim_C3_witness :
    (∀ p ∈ demoWs, 0 ≤ p.snd ∧ p.snd ≤ 1) ∧
    (effWeight (mergeVertex demoWs) "hand.L"
        = min (effWeight demoWs "hand.L" + effWeight demoWs "forearm.L") 1 ∧
      effWeight (mergeVertex demoWs) "hand.L" ≤ 1) ∧
    effWeight (mergeVertex demoWs) "hand.L" = 1 ∧
    getWeight (mergeVertex demoWs) "forearm.L" = none := by
  have hb : ∀ p ∈ demoWs, 0 ≤ p.snd ∧ p.snd ≤ 1 := by
    norm_num [demoWs, List.forall_mem_cons]
  have hgf : effWeight demoWs "forearm.L" = 4 / 5 := rfl
  have hgh : effWeight demoWs "hand.L" = 3 / 5 := rfl
  have hmain := claim_C3_weight_merge demoWs hb
  refine ⟨hb, hmain, ?_, ?_⟩
  · rw [hmain.1, hgf, hgh, min_eq_right (by norm_num)]
  · exact getWeight_dropGroup_same (transferVertex demoWs) "forearm.L"

/-- C4 counterexample: on a concrete scene the pipeline log records the
source order, with the weight merge and the group cleanup running before
subtree extraction, which differs from the claimed order. -/
theorem claim_C4_counterexample :
    (pipeline 5 demoScene).map Scene.log = some actualOrder ∧ actualOrder ≠ claimedOrder := by
  exact ⟨by decide, by decide⟩

/-- C4 amended: whenever the pipeline completes it runs load, discard
duplicate mesh, apply baked transform, weight merge, cleanup of unused
groups, subtree extraction, rebase, export, in that order. -/
theorem claim_C4_stage_order (fuel : Nat) (sc sc2 : Scene)
    (h : pipeline fuel sc = some sc2) :
    sc2.log = sc.log ++ actualOrder := by
  unfold pipeline at h
  cases hex : stExtract fuel
      (stCleanup (stMergeWeights (stApplyTransform (stDiscardDup (stLoad sc))))) with
  | none =>
    rw [hex] at h
    exact absurd h (by simp)
  | some sc3 =>
    rw [hex] at h
    simp only [Option.some_bind] at h
    cases hrb : stRebase sc3 with
    | none =>
      rw [hrb] at h
      exact absurd h (by simp)
    | some sc4 =>
      rw [hrb] at h
      simp only [Option.map_some', Option.some.injEq] at h
      have h3 := stExtract_log fuel _ _ hex
      have h4 := stRebase_log _ _ hrb
      rw [← h]
      show (stExportScene sc4).log = sc.log ++ actualOrder
      simp only [stExportScene]
      rw [h4, h3]
      simp [stCleanup, stMergeWeights, stApplyTransform, stDiscardDup, stLoad, actualOrder]

/-- Witness for C4 at the minimal scene. -/
theorem claim_C4_witness :
    pipeline 5 demoScene = some demoSceneOut ∧
    demoSceneOut.log = demoScene.log ++ actualOrder := by
  have hp : pipeline 5 demoScene = some demoSceneOut := by
    norm_num [pipeline, stLoad, stDiscardDup, stApplyTransform, stMergeWeights, stCleanup,
      stExtract, stRebase, stExportScene, demoScene, demoSceneOut, weightTransferStep,
      cleanupGroups, mirrorVerts, translateVerts, findBone, collectFuel, childrenOf,
      extractSkeleton, clearRootParent, deleteBones, removeBoneFirst, rebaseSkeleton,
      mirrorBones, mirrorBone, translateBones, translateBone, mirrorX, actualOrder,
      List.find?, List.filter, Vec3.sub_def, v0, Vec3.mk.injEq]
  exact ⟨hp, claim_C4_stage_order 5 demoScene demoSceneOut hp⟩

/-- C5 counterexample: the spine bone is present in the input skeleton and
removed by extraction, yet after the merge and the cleanup pass a vertex
entry still references spine, because the cleanup only matches the
substring .R and the explicit denylist. -/
theorem claim_C5_counterexample :
    collectFuel demoSkel5 5 [] "hand.L" = some ["hand.L"] ∧
    (∃ b ∈ demoSkel5, b.name = "spine") ∧
    (∀ b ∈ extractSkeleton demoSkel5 ["hand.L"] "hand.L", b.name ≠ "spine") ∧
    (∃ ws ∈ (cleanupGroups (weightTransferStep demoMesh5)).verts,
      ∃ p ∈ ws, p.fst = "spine") := by
  refine ⟨by decide, by decide, by decide, by decide⟩

/-- C5 amended: after the merge and the cleanup pass no vertex entry
references forearm.L, a group whose name contains .R, or a denylisted
group; entries for other bones removed by extraction may survive. -/
theorem claim_C5_cleanup_denylist (m : Mesh) :
    ∀ ws ∈ (cleanupGroups (weightTransferStep m)).verts, ∀ p ∈ ws,
      removableName p.fst = false := by
  intro ws hws p hp
  simp only [cleanupGroups] at hws
  rcases List.mem_map.mp hws with ⟨ws0, _, hEq⟩
  rw [← hEq] at hp
  have h2 := (List.mem_filter.mp hp).2
  simpa using h2

/-- Witness for C5 at the spine mesh: the surviving vertex entry list is
in the cleaned mesh and its spine entry is not removable. -/
theorem claim_C5_witness :
    ([("spine", (1 : ℚ)), ("hand.L", (0 : ℚ))]
        ∈ (cleanupGroups (weightTransferStep demoMesh5)).verts) ∧
    removableName "spine" = false :=
  ⟨by decide,
   claim_C5_cleanup_denylist demoMesh5
     [("spine", (1 : ℚ)), ("hand.L", (0 : ℚ))] (by decide)
     ("spine", (1 : ℚ)) (by decide)⟩

/-- C6: whenever the rebase succeeds, the root bone head of the rebased
skeleton is exactly the zero vector. -/
theorem claim_C6_root_at_origin (s : Skeleton) (root : String) (s2 : Skeleton) (off : Vec3)
    (h : rebaseSkeleton s root = some (s2, off)) :
    ∃ b, findBone s2 root = some b ∧ b.head = Vec3.zero := by
  unfold rebaseSkeleton at h
  cases hfb : findBone (mirrorBones s) root with
  | none =>
    rw [hfb] at h
    exact absurd h (by simp)
  | some rb =>
    rw [hfb] at h
    simp only [Option.map_some', Option.some.injEq, Prod.mk.injEq] at h
    rcases h with ⟨hs2, hoff⟩
    refine ⟨translateBone rb.head rb, ?_, ?_⟩
    · rw [← hs2, findBone_translateBones, hfb]
      rfl
    · show (translateBone rb.head rb).head = Vec3.zero
      simp only [translateBone]
      exact Vec3.sub_self rb.head

/-- Witness for C6 at the one-bone skeleton with head (2,1,0). -/
theorem claim_C6_witness :
    rebaseSkeleton exSkelC1 "hand.L" = some (exRebased, ⟨-2, 1, 0⟩) ∧
    ∃ b, findBone exRebased "hand.L" = some b ∧ b.head = Vec3.zero := by
  have h : rebaseSkeleton exSkelC1 "hand.L" = some (exRebased, ⟨-2, 1, 0⟩) := by
    norm_num [rebaseSkeleton, mirrorBones, mirrorBone, mirrorX, findBone, exSkelC1,
      exRebased, translateBones, translateBone, Vec3.sub_def, Vec3.mk.injEq, List.find?]
  exact ⟨h, claim_C6_root_at_origin exSkelC1 "hand.L" exRebased ⟨-2, 1, 0⟩ h⟩

/-- C7 counterexample: on the one-bone skeleton whose bone is its own
parent, the collect traversal never completes at any recursion depth, so
the input is not rejected with an error before (or during) traversal and
the traversal does not terminate. -/
theorem claim_C7_counterexample : ¬ collectTerminates cycSkel "a" := by
  rintro ⟨fuel, keep, hk⟩
  rw [collect_selfparent_diverges cycSkel "a" ⟨"a", some "a", v0, v0⟩
    (by decide) rfl rfl fuel []] at hk
  exact absurd hk (by simp)

/-- C7 amended: the extractor performs no cycle detection and has no
MalformedSkeleton error; on any skeleton whose keep-root is its own
parent the traversal never completes. -/
theorem claim_C7_no_cycle_detection (s : Skeleton) (root : String)
    (hcyc : ∃ b ∈ s, b.name = root ∧ b.parent = some root) :
    ¬ collectTerminates s root := by
  rcases hcyc with ⟨b, hb, hname, hpar⟩
  rintro ⟨fuel, keep, hk⟩
  rw [collect_selfparent_diverges s root b hb hname hpar fuel []] at hk
  exact absurd hk (by simp)

/-- Witness for C7 at a two-bone skeleton with a self-parented root. -/
theorem claim_C7_witness :
    (∃ b ∈ cycSkel2, b.name = "x" ∧ b.parent = some "x") ∧
    ¬ collectTerminates cycSkel2 "x" :=
  ⟨by decide, claim_C7_no_cycle_detection cycSkel2 "x" (by decide)⟩

/-- C9: a vertex with no weight on the removed forearm.L keeps its hand.L
weight unchanged, and for every vertex the weights of groups other than
forearm.L and hand.L are untouched by the merge. -/
theorem claim_C9_frame (ws : VWeights) :
    (effWeight ws "forearm.L" = 0 →
      effWeight (mergeVertex ws) "hand.L" = effWeight ws "hand.L") ∧
    (∀ g, g ≠ "hand.L" → g ≠ "forearm.L" →
      getWeight (mergeVertex ws) g = getWeight ws g) := by
  constructor
  · intro h0
    rw [effWeight_mergeVertex_hand]
    unfold transferVertex
    rw [h0]
    simp
  · intro g hg hg2
    unfold mergeVertex dropGroupEntries
    rw [getWeight_filter]
    · unfold transferVertex
      by_cases h : 0 < effWeight ws "forearm.L"
      · rw [if_pos h]
        exact getWeight_setWeight_other ws "hand.L" g _ hg
      · rw [if_neg h]
    · intro p hp
      rw [hp]
      simpa using hg2

/-- Witness for C9: a vertex with forearm weight 0 keeps hand at 1/2, and
its thumb entry is untouched. -/
theorem claim_C9_witness :
    (effWeight demoWs2 "forearm.L" = 0 ∧
      effWeight (mergeVertex demoWs2) "hand.L" = effWeight demoWs2 "hand.L") ∧
    getWeight (mergeVertex demoWs2) "thumb.L" = getWeight demoWs2 "thumb.L" :=
  ⟨⟨rfl, (claim_C9_frame demoWs2).1 rfl⟩,
   (claim_C9_frame demoWs2).2 "thumb.L" (by decide) (by decide)⟩

/-- C10: when the mesh lacks the forearm.L vertex group or the hand.L
vertex group, the weight-transfer step is a no-op: nothing changes and
nothing fails. -/
theorem claim_C10_missing_group_noop (m : Mesh)
    (h : m.groups.contains "forearm.L" = false ∨ m.groups.contains "hand.L" = false) :
    weightTransferStep m = m := by
  unfold weightTransferStep
  rcases h with h | h <;> rw [h] <;> simp

/-- Witness for C10 at a mesh with a hand group but no forearm group. -/
theorem claim_C10_witness :
    (demoMesh0.groups.contains "forearm.L" = false ∨
      demoMesh0.groups.contains "hand.L" = false) ∧
    weightTransferStep demoMesh0 = demoMesh0 :=
  ⟨Or.inl (by decide), claim_C10_missing_group_noop demoMesh0 (Or.inl (by decide))⟩

end HandExport
